import Mathlib

/-!
Verification of the parallel AES-CTR keystream generator (`src/main.rs`).

The program fills a large `Vec<[u8; 16]>` with AES-128 counter-mode
keystream: it checks `NUM_PASSWORDS % CHUNK_SIZE == 0`, allocates the
buffer without zero-filling it (`Vec::with_capacity` + `set_len`),
splits it into chunks of `CHUNK_SIZE` records with
`par_chunks_mut(CHUNK_SIZE).enumerate()`, and for chunk `chunk_idx`
builds a 16-byte IV whose bytes `8..16` hold `chunk_idx.to_le_bytes()`,
creates `Ctr128BE::<Aes128>::new(&key, &iv)` and calls
`cipher.apply_keystream(chunk_bytes)` on the chunk's byte span.

Bytes are modelled as `Nat` values below 256, byte buffers as
`List Nat`.  AES-128 itself (from the `aes` crate) is modelled by a
full executable implementation, validated below against the FIPS-197
Appendix C.1 test vector.  `Ctr128BE` keystream application (from the
`ctr` crate) is modelled by `applyKeystream`: the whole 16-byte IV is
one big-endian 128-bit counter, incremented (mod 2^128) once per
16-byte block, and each keystream block is XORed into the data, the
final block truncated to the remaining length.
-/

set_option maxRecDepth 100000

/-! ## GF(2^8) arithmetic and the AES-128 block cipher -/

/-- Multiplication by x in GF(2^8) modulo the AES polynomial 0x11b. -/
def xtime (b : Nat) : Nat := if b < 128 then 2 * b else ((2 * b) % 256) ^^^ 0x1b

/-- Russian-peasant multiplication in GF(2^8), 8 bit-steps. -/
def gmulAux : Nat → Nat → Nat → Nat → Nat
  | 0, _, _, acc => acc
  | n+1, a, b, acc =>
      gmulAux n (xtime a) (b / 2) (if b % 2 = 1 then acc ^^^ a else acc)

/-- Product in GF(2^8). -/
def gmul (a b : Nat) : Nat := gmulAux 8 a b 0

/-- Multiplicative inverse in GF(2^8) as b^254 (maps 0 to 0). -/
def ginv (b : Nat) : Nat :=
  let b2 := gmul b b
  let b4 := gmul b2 b2
  let b8 := gmul b4 b4
  let b16 := gmul b8 b8
  let b32 := gmul b16 b16
  let b64 := gmul b32 b32
  let b128 := gmul b64 b64
  gmul b128 (gmul b64 (gmul b32 (gmul b16 (gmul b8 (gmul b4 b2)))))

/-- Left rotation of a byte by n bits. -/
def rotl8 (b n : Nat) : Nat := ((b * 2 ^ n) % 256) + b / 2 ^ (8 - n)

/-- The AES S-box, computed from its algebraic definition:
multiplicative inverse followed by the affine transform. -/
def sboxFun (b : Nat) : Nat :=
  let x := ginv b
  x ^^^ rotl8 x 1 ^^^ rotl8 x 2 ^^^ rotl8 x 3 ^^^ rotl8 x 4 ^^^ 0x63

/-- SubBytes on the flat 16-byte state. -/
def subBytes (st : List Nat) : List Nat := st.map sboxFun

/-- ShiftRows on the flat column-major 16-byte state. -/
def shiftRows (st : List Nat) : List Nat :=
  [st.getD 0 0, st.getD 5 0, st.getD 10 0, st.getD 15 0,
   st.getD 4 0, st.getD 9 0, st.getD 14 0, st.getD 3 0,
   st.getD 8 0, st.getD 13 0, st.getD 2 0, st.getD 7 0,
   st.getD 12 0, st.getD 1 0, st.getD 6 0, st.getD 11 0]

/-- MixColumns on one column. -/
def mixCol (a b c d : Nat) : List Nat :=
  [gmul 2 a ^^^ gmul 3 b ^^^ c ^^^ d,
   a ^^^ gmul 2 b ^^^ gmul 3 c ^^^ d,
   a ^^^ b ^^^ gmul 2 c ^^^ gmul 3 d,
   gmul 3 a ^^^ b ^^^ c ^^^ gmul 2 d]

/-- MixColumns on the flat 16-byte state. -/
def mixColumns (st : List Nat) : List Nat :=
  mixCol (st.getD 0 0) (st.getD 1 0) (st.getD 2 0) (st.getD 3 0) ++
  mixCol (st.getD 4 0) (st.getD 5 0) (st.getD 6 0) (st.getD 7 0) ++
  mixCol (st.getD 8 0) (st.getD 9 0) (st.getD 10 0) (st.getD 11 0) ++
  mixCol (st.getD 12 0) (st.getD 13 0) (st.getD 14 0) (st.getD 15 0)

/-- Byte-wise XOR of two buffers, truncated to the shorter one. -/
def xorBytes (a b : List Nat) : List Nat := List.zipWith (· ^^^ ·) a b

/-- SubWord of the AES key schedule. -/
def subWord (w : List Nat) : List Nat := w.map sboxFun

/-- RotWord of the AES key schedule. -/
def rotWord : List Nat → List Nat
  | [] => []
  | a :: rest => rest ++ [a]

/-- One AES-128 key-schedule round: from a 16-byte round key and a
round constant to the next 16-byte round key. -/
def nextRoundKey (rk : List Nat) (rc : Nat) : List Nat :=
  let w0 := rk.take 4
  let w1 := (rk.drop 4).take 4
  let w2 := (rk.drop 8).take 4
  let w3 := rk.drop 12
  let t := xorBytes (subWord (rotWord w3)) [rc, 0, 0, 0]
  let u0 := xorBytes w0 t
  let u1 := xorBytes w1 u0
  let u2 := xorBytes w2 u1
  let u3 := xorBytes w3 u2
  u0 ++ u1 ++ u2 ++ u3

/-- The ten AES-128 round constants (powers of x in GF(2^8)). -/
def rcons : List Nat := [0x01, 0x02, 0x04, 0x08, 0x10, 0x20, 0x40, 0x80, 0x1b, 0x36]

/-- All round keys generated from the cipher key, one per round constant
plus the initial key. -/
def roundKeys (key : List Nat) : List Nat → List (List Nat)
  | [] => [key]
  | rc :: rest => key :: roundKeys (nextRoundKey key rc) rest

/-- The AES rounds after the initial AddRoundKey: a normal round per
round key except the last, which omits MixColumns. -/
def aesRoundsGo : List (List Nat) → List Nat → List Nat
  | [], st => st
  | [rk], st => xorBytes (shiftRows (subBytes st)) rk
  | rk :: rks, st => aesRoundsGo rks (xorBytes (mixColumns (shiftRows (subBytes st))) rk)

/-- AES-128 encryption of one 16-byte block. -/
def aes128Encrypt (key block : List Nat) : List Nat :=
  match roundKeys key rcons with
  | [] => block
  | rk0 :: rks => aesRoundsGo rks (xorBytes block rk0)

/-- Validation of the AES-128 model against the FIPS-197 Appendix C.1
test vector. -/
theorem aes128Encrypt_fips197 : aes128Encrypt
    [0x00,0x01,0x02,0x03,0x04,0x05,0x06,0x07,0x08,0x09,0x0a,0x0b,0x0c,0x0d,0x0e,0x0f]
    [0x00,0x11,0x22,0x33,0x44,0x55,0x66,0x77,0x88,0x99,0xaa,0xbb,0xcc,0xdd,0xee,0xff] =
    [0x69,0xc4,0xe0,0xd8,0x6a,0x7b,0x04,0x30,0xd8,0xcd,0xb7,0x80,0x70,0xb4,0xc5,0x5a] := by
  decide

/-! ## Big-endian 128-bit counters (`Ctr128BE`) -/

/-- The value of a byte string read as a big-endian integer: how
`Ctr128BE` interprets the 16-byte IV as its 128-bit counter. -/
def beVal (bs : List Nat) : Nat := bs.foldl (fun acc b => 256 * acc + b) 0

/-- The 16-byte big-endian encoding of a 128-bit counter value: the
block that `Ctr128BE` feeds to the block cipher. -/
def beBytes16 (v : Nat) : List Nat :=
  [v / 2^120 % 256, v / 2^112 % 256, v / 2^104 % 256, v / 2^96 % 256,
   v / 2^88 % 256, v / 2^80 % 256, v / 2^72 % 256, v / 2^64 % 256,
   v / 2^56 % 256, v / 2^48 % 256, v / 2^40 % 256, v / 2^32 % 256,
   v / 2^24 % 256, v / 2^16 % 256, v / 2^8 % 256, v % 256]

/-- One keystream block of `Ctr128BE<Aes128>`: the AES-128 encryption of
the big-endian counter block. -/
def ksBlock (key : List Nat) (ctr : Nat) : List Nat := aes128Encrypt key (beBytes16 ctr)

/-- Model of `cipher.apply_keystream(data)` for
`Ctr128BE::<Aes128>::new(&key, &iv)` with `ctr = beVal iv`: XOR the
data, 16 bytes at a time, with successive keystream blocks, the counter
incrementing (mod 2^128) per block and the final partial block
truncated to the data's length. -/
def applyKeystream (key : List Nat) (ctr : Nat) (data : List Nat) : List Nat :=
  match data with
  | [] => []
  | b :: rest =>
      xorBytes (List.take 16 (b :: rest)) (ksBlock key ctr)
        ++ applyKeystream key ((ctr + 1) % 2^128) (List.drop 15 rest)
termination_by data.length
decreasing_by simp; omega

/-- The pure keystream of `Ctr128BE<Aes128>`: n full blocks starting at
the given counter. -/
def keystreamOf (key : List Nat) (ctr : Nat) : Nat → List Nat
  | 0 => []
  | n+1 => ksBlock key ctr ++ keystreamOf key ((ctr + 1) % 2^128) n

/-! ## The generator program (`main`) -/

/-- The program's record count `NUM_PASSWORDS`. -/
def NUM_PASSWORDS : Nat := 4000000000

/-- The program's chunk size `CHUNK_SIZE` (records per chunk). -/
def CHUNK_SIZE : Nat := 1000000

/-- The program's fixed key `[0x13u8; 16]`. -/
def key13 : List Nat := List.replicate 16 0x13

/-- Model of the per-chunk IV construction: a 16-byte array, bytes 0..8
zero, bytes 8..16 holding `chunk_idx.to_le_bytes()`.  A pure function of
the chunk index alone; the key does not occur. -/
def deriveIV (i : Nat) : List Nat :=
  List.replicate 8 0 ++
    [i % 256, i / 2^8 % 256, i / 2^16 % 256, i / 2^24 % 256,
     i / 2^32 % 256, i / 2^40 % 256, i / 2^48 % 256, i / 2^56 % 256]

/-- The number of chunks `num_chunks = NUM_PASSWORDS / CHUNK_SIZE`. -/
def numChunks (N C : Nat) : Nat := N / C

/-- The chunk descriptors produced by `par_chunks_mut(C).enumerate()` on
a buffer of N records: chunk i covers records `[i*C, i*C + len)` with
`len = min C (N - i*C)` (the trailing chunk may be short when C does not
divide N; `main` only reaches this code when it does). -/
def chunkDescs (N C : Nat) : List (Nat × Nat) :=
  (List.range ((N + C - 1) / C)).map fun i => (i * C, min C (N - i * C))

/-- Model of the parallel generation loop, processing the byte buffer
chunk by chunk: chunk i (16*C bytes) is filled by `apply_keystream`
under counter `beVal (deriveIV i)`.  Chunk order is irrelevant to the
result since the spans are disjoint; the model writes them in index
order. -/
def runGenAux (key : List Nat) (C : Nat) (i : Nat) (data : List Nat) : List Nat :=
  match data with
  | [] => []
  | b :: rest =>
      if 16 * C = 0 then b :: rest
      else
        applyKeystream key (beVal (deriveIV i)) (List.take (16 * C) (b :: rest))
          ++ runGenAux key C (i + 1) (List.drop (16 * C - 1) rest)
termination_by data.length
decreasing_by simp; omega

/-- The whole generation pass over the byte buffer, starting at chunk 0. -/
def runGen (key : List Nat) (C : Nat) (init : List Nat) : List Nat :=
  runGenAux key C 0 init

/-- The abstract phases of `main`, in source order: system-info
snapshot, the divisibility check, buffer allocation, parallel
generation, and the report. -/
inductive MainStep where
  | sysInfo : MainStep
  | configCheck : MainStep
  | alloc : MainStep
  | generate : MainStep
  | report : MainStep
deriving DecidableEq

/-- The error of the `panic!` raised when `NUM_PASSWORDS % CHUNK_SIZE != 0`. -/
inductive RunError where
  | configError : RunError
deriving DecidableEq

/-- The sequence of phases `main` executes for a configuration: the
divisibility check runs right after the system-info snapshot, and on
failure the run stops there — allocation, generation and reporting are
never reached. -/
def mainTrace (N C : Nat) : List MainStep :=
  if N % C ≠ 0 then [.sysInfo, .configCheck]
  else [.sysInfo, .configCheck, .alloc, .generate, .report]

/-- The result of `main` on a configuration: `panic!` (modelled as
`Except.error`) when C does not divide N, otherwise the generated
buffer.  `init` is the arbitrary content the allocator left in the
buffer: the program sets the length with `unsafe set_len` and never
zero-fills, so generation starts from unspecified bytes. -/
def mainRun (N C : Nat) (key init : List Nat) : Except RunError (List Nat) :=
  if N % C ≠ 0 then .error .configError
  else .ok (runGen key C init)

/-! ## Partition, IV layout, and configuration checking (C4-C7) -/

/-- Helper: characterisation of Nat division by the containing interval. -/
theorem div_eq_of_between {C r y : Nat} (hC : 0 < C) (h1 : y * C ≤ r)
    (h2 : r < y * C + C) : y = r / C := by
  have hle : y ≤ r / C := (Nat.le_div_iff_mul_le hC).2 h1
  have hlt : r / C < y + 1 := by
    have hr : r < (y + 1) * C := by rw [Nat.succ_mul]; omega
    exact (Nat.div_lt_iff_lt_mul hC).2 hr
  omega

/-- The partition property of `par_chunks_mut(C).enumerate()` on N
records when C divides N: exactly N/C chunk descriptors, chunk i
starting at record i*C with length exactly C, and every record index
below N lying in exactly one chunk. -/
def partitionSpec (N C : Nat) : Prop :=
  (chunkDescs N C).length = numChunks N C ∧
  (∀ i, i < numChunks N C → (chunkDescs N C).get? i = some (i * C, C)) ∧
  (∀ r, r < N → ∃! i, i < numChunks N C ∧ i * C ≤ r ∧ r < i * C + C)

/-- Claim C6: for every (N, C) with C > 0 and N mod C = 0, the partition
into chunks yields exactly N/C chunks, each of length exactly C records,
contiguous and ordered by index, covering [0, N) with no gap and no
overlap. -/
theorem chunk_partition_exact (N C : Nat) (hC : 0 < C) (hdvd : N % C = 0) :
    partitionSpec N C := by
  obtain ⟨k, hk⟩ := Nat.dvd_of_mod_eq_zero hdvd
  subst hk
  have hNC : C * k / C = k := Nat.mul_div_cancel_left _ hC
  have hceil : (C * k + C - 1) / C = k := by
    have h1 : C * k + C - 1 = C * k + (C - 1) := by omega
    rw [h1, Nat.mul_add_div hC, Nat.div_eq_of_lt (by omega)]
    omega
  refine ⟨?_, ?_, ?_⟩
  · simp [chunkDescs, numChunks, hceil, hNC]
  · intro i hi
    have hik : i < k := by
      simpa [numChunks, hNC] using hi
    have hlen : i * C + C ≤ C * k := by
      calc i * C + C = (i + 1) * C := (Nat.succ_mul i C).symm
        _ ≤ k * C := Nat.mul_le_mul_right _ hik
        _ = C * k := Nat.mul_comm _ _
    have hmin : min C (C * k - i * C) = C :=
      Nat.min_eq_left (Nat.le_sub_of_add_le (by omega))
    have h1 : i < (C * k + C - 1) / C := by rw [hceil]; exact hik
    rw [chunkDescs, List.get?_map, List.get?_range h1, Option.map_some', hmin]
  · intro r hr
    have hq : r / C < numChunks (C * k) C := by
      have : r / C < C * k / C :=
        Nat.div_lt_div_of_lt_of_dvd (Dvd.intro k rfl) hr
      simpa [numChunks] using this
    have hle : r / C * C ≤ r := Nat.div_mul_le_self r C
    have hlt : r < r / C * C + C := by
      have hdm := Nat.div_add_mod r C
      have hm : r % C < C := Nat.mod_lt _ hC
      have hcomm : r / C * C = C * (r / C) := Nat.mul_comm _ _
      omega
    refine ⟨r / C, ⟨hq, hle, hlt⟩, ?_⟩
    rintro y ⟨_, hy2, hy3⟩
    exact div_eq_of_between hC hy2 hy3

/-- Witness for C6 at the program's own configuration
(N = 4,000,000,000 records, C = 1,000,000 records per chunk). -/
theorem chunk_partition_exact_witness : partitionSpec NUM_PASSWORDS CHUNK_SIZE :=
  chunk_partition_exact NUM_PASSWORDS CHUNK_SIZE (by decide) (by decide)

/-- Claim C4: `deriveIV i` is 16 bytes; its bytes 0..8 (the high-order
half of the big-endian counter) are zero and its bytes 8..16 (the
low-order half) are the little-endian encoding of i, byte j of that
half being `i / 2^(8j) % 256`.  The definition takes no key argument
and is a pure function of i alone. -/
theorem deriveIV_layout (i : Nat) (hi : i < 2 ^ 64) :
    (deriveIV i).length = 16 ∧
    (∀ j, j < 8 → (deriveIV i).getD j 0 = 0) ∧
    (∀ j, j < 8 → (deriveIV i).getD (8 + j) 0 = i / 2 ^ (8 * j) % 256) := by
  refine ⟨by simp [deriveIV], ?_, ?_⟩ <;> intro j hj <;> interval_cases j <;>
    simp [deriveIV, List.replicate_succ]

/-- Witness for C4 at chunk index 5. -/
theorem deriveIV_layout_witness :
    (deriveIV 5).length = 16 ∧ (deriveIV 5).getD 3 0 = 0 ∧
    (deriveIV 5).getD (8 + 0) 0 = 5 / 2 ^ (8 * 0) % 256 :=
  ⟨(deriveIV_layout 5 (by decide)).1,
   (deriveIV_layout 5 (by decide)).2.1 3 (by decide),
   (deriveIV_layout 5 (by decide)).2.2 0 (by decide)⟩

/-- Claim C5: IV derivation is injective over chunk indices below 2^64
(the index domain of one run, `chunk_idx` being a `usize`). -/
theorem deriveIV_injective (i j : Nat) (hi : i < 2 ^ 64) (hj : j < 2 ^ 64)
    (hne : i ≠ j) : deriveIV i ≠ deriveIV j := by
  intro heq
  apply hne
  simp [deriveIV] at heq
  omega

/-- Witness for C5 at the indices 0 and 1. -/
theorem deriveIV_injective_witness : deriveIV 0 ≠ deriveIV 1 :=
  deriveIV_injective 0 1 (by decide) (by decide) (by decide)

/-- Claim C7: when C does not divide N the run fails with the
configuration error straight after the check, which precedes buffer
allocation in `main`: the trace stops at the check, so no allocation
happens and no generation task is ever scheduled. -/
theorem mainRun_config_error (N C : Nat) (key init : List Nat) (h : N % C ≠ 0) :
    mainRun N C key init = .error .configError ∧
    mainTrace N C = [.sysInfo, .configCheck] ∧
    MainStep.alloc ∉ mainTrace N C ∧
    MainStep.generate ∉ mainTrace N C := by
  refine ⟨?_, ?_, ?_, ?_⟩ <;> simp [mainRun, mainTrace, h]

/-- Witness for C7 at the spec's example configuration N = 10, C = 3. -/
theorem mainRun_config_error_witness :
    mainRun 10 3 key13 [] = .error .configError ∧
    mainTrace 10 3 = [.sysInfo, .configCheck] ∧
    MainStep.alloc ∉ mainTrace 10 3 ∧
    MainStep.generate ∉ mainTrace 10 3 :=
  mainRun_config_error 10 3 key13 [] (by decide)

/-! ## Length and unfolding lemmas for the cipher model -/

/-- Helper: `xorBytes` truncates to the shorter argument. -/
theorem xorBytes_length (a b : List Nat) :
    (xorBytes a b).length = min a.length b.length := by
  simp [xorBytes]

/-- Helper: `rotWord` preserves length. -/
theorem rotWord_length (w : List Nat) : (rotWord w).length = w.length := by
  cases w <;> simp [rotWord]

/-- Helper: the key schedule keeps round keys 16 bytes long. -/
theorem nextRoundKey_length (rk : List Nat) (rc : Nat) (h : rk.length = 16) :
    (nextRoundKey rk rc).length = 16 := by
  simp [nextRoundKey, xorBytes_length, rotWord_length, subWord, h]

/-- Helper: every round key produced from a 16-byte key is 16 bytes. -/
theorem roundKeys_length_all (rcs : List Nat) : ∀ key : List Nat, key.length = 16 →
    ∀ rk ∈ roundKeys key rcs, rk.length = 16 := by
  induction rcs with
  | nil => intro key hkey rk hrk; simp [roundKeys] at hrk; simpa [hrk] using hkey
  | cons rc rest ih =>
    intro key hkey rk hrk
    simp only [roundKeys, List.mem_cons] at hrk
    rcases hrk with h | h
    · simpa [h] using hkey
    · exact ih (nextRoundKey key rc) (nextRoundKey_length key rc hkey) rk h

/-- Helper: `roundKeys` produces one round key per round constant plus one. -/
theorem roundKeys_length (rcs : List Nat) : ∀ key : List Nat,
    (roundKeys key rcs).length = rcs.length + 1 := by
  induction rcs with
  | nil => intro key; simp [roundKeys]
  | cons rc rest ih => intro key; simp [roundKeys, ih]

/-- Helper: `shiftRows` always yields 16 bytes. -/
theorem shiftRows_length (st : List Nat) : (shiftRows st).length = 16 := by
  simp [shiftRows]

/-- Helper: the AES round iteration ends in a 16-byte state whenever all
round keys are 16 bytes and there is at least one round. -/
theorem aesRoundsGo_length16 : ∀ rks : List (List Nat), ∀ st : List Nat,
    (∀ rk ∈ rks, rk.length = 16) → rks ≠ [] → (aesRoundsGo rks st).length = 16 := by
  intro rks
  induction rks with
  | nil => intro st _ hne; cases hne rfl
  | cons rk rks ih =>
    intro st hall _
    cases rks with
    | nil =>
      have h16 : rk.length = 16 := hall rk (by simp)
      simp [aesRoundsGo, xorBytes_length, shiftRows_length, h16]
    | cons rk2 rks2 =>
      simp only [aesRoundsGo]
      exact ih _ (fun r hr => hall r (List.mem_cons_of_mem _ hr)) (by simp)

/-- Helper: AES-128 encryption of any block under a 16-byte key is a
16-byte block. -/
theorem aes128Encrypt_length (key block : List Nat) (h : key.length = 16) :
    (aes128Encrypt key block).length = 16 := by
  have hall := roundKeys_length_all rcons key h
  have hlen := roundKeys_length rcons key
  unfold aes128Encrypt
  cases hrk : roundKeys key rcons with
  | nil => rw [hrk] at hlen; simp [rcons] at hlen
  | cons rk0 rks =>
    apply aesRoundsGo_length16
    · intro rk hm; exact hall rk (hrk ▸ List.mem_cons_of_mem _ hm)
    · rw [hrk] at hlen; simp [rcons] at hlen; intro hnil; rw [hnil] at hlen; simp at hlen

/-- Helper: keystream blocks are 16 bytes. -/
theorem ksBlock_length (key : List Nat) (c : Nat) (h : key.length = 16) :
    (ksBlock key c).length = 16 := aes128Encrypt_length key _ h

/-- Helper: one-step unfolding of `applyKeystream`, valid for every
data buffer including the empty one. -/
theorem applyKeystream_unfold (key : List Nat) (c : Nat) (data : List Nat) :
    applyKeystream key c data =
      xorBytes (data.take 16) (ksBlock key c)
        ++ applyKeystream key ((c + 1) % 2 ^ 128) (data.drop 16) := by
  cases data with
  | nil => simp [applyKeystream, xorBytes]
  | cons b rest =>
    rw [applyKeystream]
    simp [List.drop_succ_cons]

/-- Helper: `apply_keystream` writes exactly the span it is given: the
output has the same length as the input. -/
theorem applyKeystream_length (key : List Nat) (hkey : key.length = 16) :
    ∀ n c data, List.length data ≤ n →
      (applyKeystream key c data).length = data.length := by
  intro n
  induction n with
  | zero =>
    intro c data hle
    have hdata : data = [] := List.length_eq_zero.mp (Nat.le_zero.mp hle)
    simp [hdata, applyKeystream]
  | succ n ih =>
    intro c data hle
    cases data with
    | nil => simp [applyKeystream]
    | cons b rest =>
      rw [applyKeystream_unfold]
      have hrec := ih ((c + 1) % 2 ^ 128) ((b :: rest).drop 16) (by
        simp only [List.length_drop, List.length_cons] at hle ⊢
        omega)
      simp only [List.length_append, xorBytes_length, List.length_take,
        ksBlock_length key c hkey, hrec, List.length_drop]
      simp
      omega

/-- The 16-byte block number k of a byte buffer. -/
def blockAt (l : List Nat) (k : Nat) : List Nat := (l.drop (16 * k)).take 16

/-- The byte span of chunk k when the buffer is split into chunks of C
records (16*C bytes). -/
def chunkAt (l : List Nat) (C k : Nat) : List Nat :=
  (l.drop (16 * C * k)).take (16 * C)

/-- Helper: wrapper for `applyKeystream_length` without the fuel bound. -/
theorem applyKeystream_len (key : List Nat) (hkey : key.length = 16) (c : Nat)
    (data : List Nat) : (applyKeystream key c data).length = data.length :=
  applyKeystream_length key hkey data.length c data (Nat.le_refl _)

/-- Helper: the first 16 output bytes of `apply_keystream` are the
first (possibly truncated) data block XORed with the keystream block at
the starting counter. -/
theorem applyKeystream_take16 (key : List Nat) (hkey : key.length = 16) (c : Nat)
    (data : List Nat) :
    (applyKeystream key c data).take 16 = xorBytes (data.take 16) (ksBlock key c) := by
  rw [applyKeystream_unfold, List.take_append_eq_append_take]
  have hxlen : (xorBytes (data.take 16) (ksBlock key c)).length = min data.length 16 := by
    rw [xorBytes_length, List.length_take, ksBlock_length key c hkey]
    omega
  by_cases h16 : 16 ≤ data.length
  · have h1 : (xorBytes (data.take 16) (ksBlock key c)).length = 16 := by omega
    rw [List.take_all_of_le (le_of_eq h1), h1]
    simp
  · have hdrop : data.drop 16 = [] := List.drop_eq_nil_of_le (by omega)
    rw [hdrop]
    have hnil : applyKeystream key ((c + 1) % 2 ^ 128) [] = [] := by
      simp [applyKeystream]
    rw [hnil]
    have hle : (xorBytes (List.take 16 data) (ksBlock key c)).length ≤ 16 := by
      rw [hxlen]; omega
    simp [List.take_all_of_le hle]

/-- Helper: dropping the first block of `apply_keystream` output gives
`apply_keystream` of the remaining data at the next counter. -/
theorem applyKeystream_drop16 (key : List Nat) (hkey : key.length = 16) (c : Nat)
    (data : List Nat) (h : 16 ≤ data.length) :
    (applyKeystream key c data).drop 16 =
      applyKeystream key ((c + 1) % 2 ^ 128) (data.drop 16) := by
  rw [applyKeystream_unfold, List.drop_append_eq_append_drop]
  have h1 : (xorBytes (data.take 16) (ksBlock key c)).length = 16 := by
    rw [xorBytes_length, List.length_take, ksBlock_length key c hkey]
    omega
  rw [h1, List.drop_eq_nil_of_le (le_of_eq h1)]
  simp

/-- Helper: block k+1 of a buffer is block k of the buffer less its
first block. -/
theorem blockAt_succ (l : List Nat) (k : Nat) :
    blockAt l (k + 1) = blockAt (l.drop 16) k := by
  unfold blockAt
  rw [List.drop_drop]
  have h : 16 + 16 * k = 16 * (k + 1) := by omega
  rw [h]

/-- Helper: closed form of the blocks that `apply_keystream` writes:
block k of the output is block k of the prior data XORed with the
keystream block at counter (start + k) mod 2^128. -/
theorem applyKeystream_blockAt (key : List Nat) (hkey : key.length = 16) :
    ∀ k c data, c < 2 ^ 128 → 16 * k < List.length data →
      blockAt (applyKeystream key c data) k =
        xorBytes (blockAt data k) (ksBlock key ((c + k) % 2 ^ 128)) := by
  intro k
  induction k with
  | zero =>
    intro c data hc hlen
    unfold blockAt
    simp only [Nat.mul_zero, List.drop_zero, Nat.add_zero, Nat.mod_eq_of_lt hc]
    exact applyKeystream_take16 key hkey c data
  | succ k ih =>
    intro c data hc hlen
    have h16 : 16 ≤ data.length := by omega
    rw [blockAt_succ, applyKeystream_drop16 key hkey c data h16]
    rw [ih ((c + 1) % 2 ^ 128) (data.drop 16) (Nat.mod_lt _ (by norm_num))
      (by rw [List.length_drop]; omega)]
    rw [← blockAt_succ]
    have hctr : ((c + 1) % 2 ^ 128 + k) % 2 ^ 128 = (c + (k + 1)) % 2 ^ 128 := by
      rw [Nat.mod_add_mod]
      congr 1
      omega
    rw [hctr]

/-- Helper: one-step unfolding of the pure keystream. -/
theorem keystreamOf_succ (key : List Nat) (c n : Nat) :
    keystreamOf key c (n + 1) = ksBlock key c ++ keystreamOf key ((c + 1) % 2 ^ 128) n := by
  rw [keystreamOf]

/-- Helper: block k of the pure keystream starting at counter c is the
keystream block at counter (c + k) mod 2^128. -/
theorem keystreamOf_blockAt (key : List Nat) (hkey : key.length = 16) :
    ∀ k n c, c < 2 ^ 128 → k < n →
      blockAt (keystreamOf key c n) k = ksBlock key ((c + k) % 2 ^ 128) := by
  intro k
  induction k with
  | zero =>
    intro n c hc hk
    cases n with
    | zero => omega
    | succ n =>
      rw [keystreamOf_succ]
      unfold blockAt
      simp only [Nat.mul_zero, List.drop_zero]
      rw [List.take_append_eq_append_take, ksBlock_length key c hkey,
        List.take_all_of_le (le_of_eq (ksBlock_length key c hkey))]
      simp
      congr 1
      omega
  | succ k ih =>
    intro n c hc hk
    cases n with
    | zero => omega
    | succ n =>
      rw [keystreamOf_succ, blockAt_succ, List.drop_append_eq_append_drop,
        ksBlock_length key c hkey,
        List.drop_eq_nil_of_le (le_of_eq (ksBlock_length key c hkey))]
      simp only [List.nil_append, Nat.sub_self, List.drop_zero]
      rw [ih n ((c + 1) % 2 ^ 128) (Nat.mod_lt _ (by norm_num)) (by omega)]
      have hctr : ((c + 1) % 2 ^ 128 + k) % 2 ^ 128 = (c + (k + 1)) % 2 ^ 128 := by
        rw [Nat.mod_add_mod]
        congr 1
        omega
      rw [hctr]

/-- Helper: one-step unfolding of the generation loop, valid for every
buffer including the empty one. -/
theorem runGenAux_unfold (key : List Nat) (C : Nat) (hC : 0 < C) (i : Nat)
    (data : List Nat) :
    runGenAux key C i data =
      applyKeystream key (beVal (deriveIV i)) (data.take (16 * C))
        ++ runGenAux key C (i + 1) (data.drop (16 * C)) := by
  cases data with
  | nil => simp [runGenAux, applyKeystream]
  | cons b rest =>
    rw [runGenAux, if_neg (by omega : ¬ 16 * C = 0)]
    have hdrop : List.drop (16 * C) (b :: rest) = List.drop (16 * C - 1) rest := by
      conv_lhs => rw [show 16 * C = (16 * C - 1) + 1 from by omega]
      rw [List.drop_succ_cons]
    rw [hdrop]

/-- Helper: chunk j of the generated buffer is `apply_keystream` of
chunk j of the prior buffer under the IV derived from its chunk index. -/
theorem runGenAux_chunkAt (key : List Nat) (hkey : key.length = 16) (C : Nat)
    (hC : 0 < C) :
    ∀ j i0 data, 16 * C * (j + 1) ≤ List.length data →
      chunkAt (runGenAux key C i0 data) C j =
        applyKeystream key (beVal (deriveIV (i0 + j))) (chunkAt data C j) := by
  intro j
  induction j with
  | zero =>
    intro i0 data hlen
    rw [runGenAux_unfold key C hC]
    unfold chunkAt
    simp only [Nat.mul_zero, List.drop_zero, Nat.add_zero]
    have hA : (applyKeystream key (beVal (deriveIV i0)) (data.take (16 * C))).length
        = 16 * C := by
      rw [applyKeystream_len key hkey, List.length_take]
      omega
    rw [List.take_append_eq_append_take, hA, List.take_all_of_le (le_of_eq hA)]
    simp
  | succ j ih =>
    intro i0 data hlen
    have h1C : 16 * C ≤ 16 * C * (j + 1) := by
      calc 16 * C = 16 * C * 1 := by ring
        _ ≤ 16 * C * (j + 1) := Nat.mul_le_mul_left _ (by omega)
    have h16 : 16 * C ≤ data.length := by
      have h2C : 16 * C * (j + 1) ≤ 16 * C * (j + 1 + 1) := Nat.mul_le_mul_left _ (by omega)
      omega
    rw [runGenAux_unfold key C hC]
    unfold chunkAt
    have hA : (applyKeystream key (beVal (deriveIV i0)) (data.take (16 * C))).length
        = 16 * C := by
      rw [applyKeystream_len key hkey, List.length_take]
      omega
    have hAle : (applyKeystream key (beVal (deriveIV i0)) (data.take (16 * C))).length
        ≤ 16 * C * (j + 1) := by rw [hA]; exact h1C
    rw [List.drop_append_eq_append_drop, hA, List.drop_eq_nil_of_le hAle]
    simp only [List.nil_append]
    have hsub : 16 * C * (j + 1) - 16 * C = 16 * C * j := by
      rw [Nat.mul_succ]
      omega
    rw [hsub]
    have hlen2 : 16 * C * (j + 1) ≤ (data.drop (16 * C)).length := by
      rw [List.length_drop]
      rw [Nat.mul_succ] at hlen
      omega
    have hstep := ih (i0 + 1) (data.drop (16 * C)) hlen2
    unfold chunkAt at hstep
    rw [hstep]
    have hidx : i0 + 1 + j = i0 + (j + 1) := by omega
    rw [hidx, List.drop_drop]
    have harg : 16 * C + 16 * C * j = 16 * C * (j + 1) := by
      rw [Nat.mul_succ]
      omega
    rw [harg]

/-- Helper: closed form of the big-endian counter value of a derived
IV, as a weighted sum of chunk-index bytes.  The low-order eight bytes
of the big-endian counter hold the index little-endian, so the counter
value is the byte-swapped index. -/
theorem beVal_deriveIV (i : Nat) :
    beVal (deriveIV i) =
      i % 256 * 2 ^ 56 + i / 2 ^ 8 % 256 * 2 ^ 48 + i / 2 ^ 16 % 256 * 2 ^ 40 +
      i / 2 ^ 24 % 256 * 2 ^ 32 + i / 2 ^ 32 % 256 * 2 ^ 24 + i / 2 ^ 40 % 256 * 2 ^ 16 +
      i / 2 ^ 48 % 256 * 2 ^ 8 + i / 2 ^ 56 % 256 := by
  simp [beVal, deriveIV, List.replicate_succ]
  ring

/-- Helper: derived-IV counter values fit in 64 bits, far below 2^128. -/
theorem beVal_deriveIV_lt (i : Nat) : beVal (deriveIV i) < 2 ^ 64 := by
  rw [beVal_deriveIV]
  have h0 : i % 256 < 256 := Nat.mod_lt _ (by norm_num)
  have h1 : i / 2 ^ 8 % 256 < 256 := Nat.mod_lt _ (by norm_num)
  have h2 : i / 2 ^ 16 % 256 < 256 := Nat.mod_lt _ (by norm_num)
  have h3 : i / 2 ^ 24 % 256 < 256 := Nat.mod_lt _ (by norm_num)
  have h4 : i / 2 ^ 32 % 256 < 256 := Nat.mod_lt _ (by norm_num)
  have h5 : i / 2 ^ 40 % 256 < 256 := Nat.mod_lt _ (by norm_num)
  have h6 : i / 2 ^ 48 % 256 < 256 := Nat.mod_lt _ (by norm_num)
  have h7 : i / 2 ^ 56 % 256 < 256 := Nat.mod_lt _ (by norm_num)
  omega

/-- Helper: XOR with an all-zero buffer keeps the data (truncated). -/
theorem xorBytes_replicate_zero : ∀ (n : Nat) (b : List Nat),
    xorBytes (List.replicate n 0) b = b.take n := by
  intro n
  induction n with
  | zero => intro b; simp [xorBytes]
  | succ n ih =>
    intro b
    cases b with
    | nil => simp [xorBytes]
    | cons x xs =>
      simp only [List.replicate_succ, xorBytes, List.zipWith_cons_cons,
        Nat.zero_xor, List.take_succ_cons]
      have := ih xs
      simp only [xorBytes] at this
      rw [this]

/-- Helper: a buffer XORed with itself is all zeros. -/
theorem xorBytes_self_eq (a : List Nat) : xorBytes a a = List.replicate a.length 0 := by
  induction a with
  | nil => simp [xorBytes]
  | cons x xs ih =>
    simp only [xorBytes, List.zipWith_cons_cons, Nat.xor_self, List.length_cons,
      List.replicate_succ]
    have := ih
    simp only [xorBytes] at this
    rw [this]

/-- Helper: XOR by a common left buffer is injective on equal-length
buffers. -/
theorem xorBytes_left_cancel : ∀ (p x y : List Nat), x.length = p.length →
    y.length = p.length → xorBytes p x = xorBytes p y → x = y := by
  intro p
  induction p with
  | nil =>
    intro x y hx hy _
    cases x <;> cases y <;> simp_all
  | cons a ps ih =>
    intro x y hx hy heq
    cases x with
    | nil => simp at hx
    | cons b xs =>
      cases y with
      | nil => simp at hy
      | cons c ys =>
        simp only [xorBytes, List.zipWith_cons_cons, List.cons.injEq] at heq
        have hb : b = c := by
          have h2 := congrArg (fun t => a ^^^ t) heq.1
          simpa [← Nat.xor_assoc, Nat.xor_self, Nat.zero_xor] using h2
        have ht : xs = ys := by
          apply ih xs ys (by simpa using hx) (by simpa using hy)
          simpa [xorBytes] using heq.2
        rw [hb, ht]

/-- The keystream byte at position p for a cipher started at counter c:
byte p mod 16 of the keystream block at counter (c + p/16) mod 2^128. -/
def keystreamByte (key : List Nat) (c p : Nat) : Nat :=
  (ksBlock key ((c + p / 16) % 2 ^ 128)).getD (p % 16) 0

/-- Membership in the set of 128-bit counter values consumed while
filling a chunk of C records from a starting IV of chunk index i: the
counter starts at the IV's big-endian value and is incremented
(mod 2^128) once per 16-byte block, C values in total. -/
def inCtrRange (C i v : Nat) : Prop :=
  ∃ k, k < C ∧ v = (beVal (deriveIV i) + k) % 2 ^ 128

/-- Disjointness of the counter-value sets of chunks i and j. -/
def ctrDisjoint (C i j : Nat) : Prop :=
  ∀ v, ¬ (inCtrRange C i v ∧ inCtrRange C j v)

/-- The counter consumed by chunk i never wraps around 2^128. -/
def ctrNoWrap (C i : Nat) : Prop := beVal (deriveIV i) + C ≤ 2 ^ 128

/-- Helper: the central block-level description of the generated
buffer: block k of chunk i of the output is block k of chunk i of the
prior buffer contents XORed with the keystream block at counter
(beVal (deriveIV i) + k) mod 2^128. -/
theorem runGen_block (key : List Nat) (hkey : key.length = 16) (N C : Nat)
    (hC : 0 < C) (hdvd : N % C = 0) (init : List Nat)
    (hinit : init.length = 16 * N) (i k : Nat) (hi : i < N / C) (hk : k < C) :
    blockAt (chunkAt (runGen key C init) C i) k =
      xorBytes (blockAt (chunkAt init C i) k)
        (ksBlock key ((beVal (deriveIV i) + k) % 2 ^ 128)) := by
  have hchunklen : 16 * C * (i + 1) ≤ init.length := by
    rw [hinit]
    have h2 : C * (i + 1) ≤ C * (N / C) := Nat.mul_le_mul_left _ hi
    have h3 : C * (N / C) = N := Nat.mul_div_cancel' (Nat.dvd_of_mod_eq_zero hdvd)
    calc 16 * C * (i + 1) = 16 * (C * (i + 1)) := by ring
      _ ≤ 16 * (C * (N / C)) := Nat.mul_le_mul_left _ h2
      _ = 16 * N := by rw [h3]
  rw [runGen, runGenAux_chunkAt key hkey C hC i 0 init hchunklen]
  simp only [Nat.zero_add]
  have hblk : 16 * k < (chunkAt init C i).length := by
    unfold chunkAt
    rw [List.length_take, List.length_drop]
    rw [Nat.mul_succ] at hchunklen
    omega
  exact applyKeystream_blockAt key hkey k (beVal (deriveIV i)) (chunkAt init C i)
    (lt_trans (beVal_deriveIV_lt i) (by norm_num)) hblk

/-- Helper: reading inside a take. -/
theorem getD_take (l : List Nat) (n m : Nat) (h : m < n) :
    (l.take n).getD m 0 = l.getD m 0 := by
  rw [List.getD_eq_get?, List.getD_eq_get?, List.get?_take h]

/-- Helper: reading inside a drop. -/
theorem getD_drop (l : List Nat) (n m : Nat) :
    (l.drop n).getD m 0 = l.getD (n + m) 0 := by
  rw [List.getD_eq_get?, List.getD_eq_get?, List.get?_drop]

/-- Helper: reading a byte of a block. -/
theorem blockAt_getD (l : List Nat) (k r : Nat) (h : r < 16) :
    (blockAt l k).getD r 0 = l.getD (16 * k + r) 0 := by
  unfold blockAt
  rw [getD_take _ _ _ h, getD_drop]

/-- Helper: reading a byte of an XOR of buffers. -/
theorem xorBytes_getD : ∀ (a b : List Nat) (m : Nat), m < a.length → m < b.length →
    (xorBytes a b).getD m 0 = a.getD m 0 ^^^ b.getD m 0 := by
  intro a
  induction a with
  | nil => intro b m h _; simp at h
  | cons x xs ih =>
    intro b m ha hb
    cases b with
    | nil => simp at hb
    | cons y ys =>
      cases m with
      | zero => simp [xorBytes]
      | succ m =>
        simp only [xorBytes, List.zipWith_cons_cons, List.getD_cons_succ]
        have := ih ys m (by simpa using ha) (by simpa using hb)
        simpa [xorBytes] using this

/-- Helper: the length of the pure keystream. -/
theorem keystreamOf_length (key : List Nat) (hkey : key.length = 16) :
    ∀ n c, (keystreamOf key c n).length = 16 * n := by
  intro n
  induction n with
  | zero => intro c; simp [keystreamOf]
  | succ n ih =>
    intro c
    rw [keystreamOf_succ, List.length_append, ksBlock_length key c hkey, ih]
    omega

/-- Helper: byte p of the pure keystream is the keystream byte at p. -/
theorem keystreamOf_getD (key : List Nat) (hkey : key.length = 16) (c : Nat)
    (hc : c < 2 ^ 128) (n p : Nat) (hp : p < 16 * n) :
    (keystreamOf key c n).getD p 0 = keystreamByte key c p := by
  have hr : p % 16 < 16 := Nat.mod_lt _ (by norm_num)
  have hq : 16 * (p / 16) + p % 16 = p := Nat.div_add_mod p 16
  have h1 := keystreamOf_blockAt key hkey (p / 16) n c hc (by omega)
  have h2 := congrArg (fun l => l.getD (p % 16) 0) h1
  simp only at h2
  rw [blockAt_getD _ _ _ hr, hq] at h2
  rw [h2]
  rfl

/-- Helper: byte p of the `apply_keystream` output is the prior byte at
p XORed with the keystream byte at p. -/
theorem applyKeystream_getD (key : List Nat) (hkey : key.length = 16) (c : Nat)
    (hc : c < 2 ^ 128) (data : List Nat) (p : Nat) (hp : p < data.length) :
    (applyKeystream key c data).getD p 0 = data.getD p 0 ^^^ keystreamByte key c p := by
  have hr : p % 16 < 16 := Nat.mod_lt _ (by norm_num)
  have hq : 16 * (p / 16) + p % 16 = p := Nat.div_add_mod p 16
  have hblk : 16 * (p / 16) < data.length := by omega
  have h1 := applyKeystream_blockAt key hkey (p / 16) c data hc hblk
  have h2 := congrArg (fun l => l.getD (p % 16) 0) h1
  simp only at h2
  have hb1 : p % 16 < (blockAt data (p / 16)).length := by
    unfold blockAt
    rw [List.length_take, List.length_drop]
    omega
  have hb2 : p % 16 < (ksBlock key ((c + p / 16) % 2 ^ 128)).length := by
    rw [ksBlock_length key _ hkey]
    omega
  rw [xorBytes_getD _ _ _ hb1 hb2, blockAt_getD _ _ _ hr, blockAt_getD _ _ _ hr, hq] at h2
  rw [h2]
  rfl

/-- Helper: buffers of equal length agreeing on every getD are equal. -/
theorem list_eq_of_getD : ∀ (a b : List Nat), a.length = b.length →
    (∀ p, p < a.length → a.getD p 0 = b.getD p 0) → a = b := by
  intro a
  induction a with
  | nil =>
    intro b h _
    symm
    exact List.length_eq_zero.mp h.symm
  | cons x xs ih =>
    intro b h hp
    cases b with
    | nil => simp at h
    | cons y ys =>
      have h0 := hp 0 (by simp)
      simp only [List.getD_cons_zero] at h0
      have ht : xs = ys := by
        apply ih ys (by simpa using h)
        intro p hq
        have := hp (p + 1) (by simp only [List.length_cons]; omega)
        simpa using this
      rw [h0, ht]

/-- Claim C10: the cipher is concretely AES-128 in CTR mode with a
big-endian 128-bit counter over the whole IV block: keystream block k
of chunk i is the AES-128 encryption, under the fixed key, of the
big-endian 128-bit value of deriveIV(i) plus k, modulo 2^128.
`aes128Encrypt` is the concrete AES-128 model validated against
FIPS-197 in `aes128Encrypt_fips197`. -/
theorem ctr_keystream_block_aes (key : List Nat) (hkey : key.length = 16)
    (i k n : Nat) (hk : k < n) :
    blockAt (keystreamOf key (beVal (deriveIV i)) n) k =
      aes128Encrypt key (beBytes16 ((beVal (deriveIV i) + k) % 2 ^ 128)) := by
  rw [keystreamOf_blockAt key hkey k n (beVal (deriveIV i))
    (lt_trans (beVal_deriveIV_lt i) (by norm_num)) hk]
  rfl

/-- Witness for C10 at the program's key, chunk 3, block 1. -/
theorem ctr_keystream_block_aes_witness :
    blockAt (keystreamOf key13 (beVal (deriveIV 3)) 2) 1 =
      aes128Encrypt key13 (beBytes16 ((beVal (deriveIV 3) + 1) % 2 ^ 128)) :=
  ctr_keystream_block_aes key13 (by decide) 3 1 2 (by decide)

/-- Claim C9: `apply_keystream` XORs the keystream into the span in
place: every output byte is the prior byte XOR the keystream byte for
that position; the output equals the pure keystream of the span's
length exactly when every prior byte was zero; and `main` hands the
allocated buffer to generation as-is (`unsafe set_len`, no
zero-filling), modelled by `mainRun` passing the arbitrary initial
contents straight to `runGen`. -/
theorem applyKeystream_xor_semantics (key : List Nat) (hkey : key.length = 16)
    (c : Nat) (hc : c < 2 ^ 128) (data : List Nat) :
    (∀ p, p < data.length →
      (applyKeystream key c data).getD p 0 = data.getD p 0 ^^^ keystreamByte key c p) ∧
    (applyKeystream key c data
        = (keystreamOf key c ((data.length + 15) / 16)).take data.length ↔
      ∀ p, p < data.length → data.getD p 0 = 0) ∧
    (∀ N C init, N % C = 0 → mainRun N C key init = Except.ok (runGen key C init)) := by
  refine ⟨fun p hp => applyKeystream_getD key hkey c hc data p hp, ?_, ?_⟩
  · constructor
    · intro h p hp
      have h2 := congrArg (fun l => l.getD p 0) h
      simp only at h2
      rw [applyKeystream_getD key hkey c hc data p hp, getD_take _ _ _ hp,
        keystreamOf_getD key hkey c hc _ p (by omega)] at h2
      have h3 := congrArg (fun t => t ^^^ keystreamByte key c p) h2
      simpa [Nat.xor_assoc, Nat.xor_self, Nat.xor_zero] using h3
    · intro hz
      apply list_eq_of_getD
      · rw [applyKeystream_len key hkey, List.length_take,
          keystreamOf_length key hkey]
        omega
      · intro p hp
        rw [applyKeystream_len key hkey] at hp
        rw [applyKeystream_getD key hkey c hc data p hp, hz p hp, Nat.zero_xor,
          getD_take _ _ _ hp, keystreamOf_getD key hkey c hc _ p (by omega)]
  · intro N C init h
    simp [mainRun, h]

/-- Witness for C9: byte 0 of a 1-byte span, and the valid-config run
shape, at concrete inputs. -/
theorem applyKeystream_xor_semantics_witness :
    (applyKeystream key13 0 [7]).getD 0 0 = List.getD [7] 0 0 ^^^ keystreamByte key13 0 0 ∧
    mainRun 10 5 key13 [] = Except.ok (runGen key13 5 []) :=
  ⟨(applyKeystream_xor_semantics key13 (by decide) 0 (by norm_num) [7]).1 0 (by decide),
   (applyKeystream_xor_semantics key13 (by decide) 0 (by norm_num) [7]).2.2 10 5 []
     (by decide)⟩

/-- Claim C1 (amended): provided block k of chunk i held all-zero bytes
before generation, bytes [16k, 16k+16) of chunk i's final contents
equal the counter-mode keystream block at counter value k under the
key and deriveIV(i) — the encryption of an all-zero plaintext.  (As
stated over arbitrary prior contents the claim fails, because
`apply_keystream` XORs into the never-zeroed buffer; see the
counterexample.) -/
theorem chunk_fill_keystream_zero_init (key : List Nat) (hkey : key.length = 16)
    (N C : Nat) (hC : 0 < C) (hdvd : N % C = 0) (init : List Nat)
    (hinit : init.length = 16 * N) (i k : Nat) (hi : i < N / C) (hk : k < C)
    (hzero : blockAt (chunkAt init C i) k = List.replicate 16 0) :
    blockAt (chunkAt (runGen key C init) C i) k =
      ksBlock key ((beVal (deriveIV i) + k) % 2 ^ 128) := by
  rw [runGen_block key hkey N C hC hdvd init hinit i k hi hk, hzero,
    xorBytes_replicate_zero, List.take_all_of_le (le_of_eq (ksBlock_length key _ hkey))]

/-- Witness for the amended C1: a zeroed 2-record buffer, chunk 1,
block 0, at the program's key. -/
theorem chunk_fill_keystream_zero_init_witness :
    blockAt (chunkAt (runGen key13 1 (List.replicate 32 0)) 1 1) 0 =
      ksBlock key13 ((beVal (deriveIV 1) + 0) % 2 ^ 128) :=
  chunk_fill_keystream_zero_init key13 (by decide) 2 1 (by decide) (by decide)
    (List.replicate 32 0) (by decide) 1 0 (by decide) (by decide) (by decide)

/-- Helper: the whole output of a single-chunk run (C = 1, one record)
in closed form. -/
theorem runGen_single_chunk (key : List Nat) (data : List Nat) (h : data.length = 16) :
    runGen key 1 data = xorBytes data (ksBlock key (beVal (deriveIV 0))) := by
  rw [runGen, runGenAux_unfold key 1 (by decide) 0]
  have h1 : List.take (16 * 1) data = data := List.take_all_of_le (by omega)
  have h2 : List.drop (16 * 1) data = [] := List.drop_eq_nil_of_le (by omega)
  have h3 : runGenAux key 1 1 ([] : List Nat) = [] := by simp [runGenAux]
  rw [h1, h2, h3, List.append_nil, applyKeystream_unfold]
  have h4 : data.take 16 = data := List.take_all_of_le (by omega)
  have h5 : data.drop 16 = [] := List.drop_eq_nil_of_le (by omega)
  have h6 : applyKeystream key ((beVal (deriveIV 0) + 1) % 2 ^ 128) [] = [] := by
    simp [applyKeystream]
  rw [h4, h5, h6, List.append_nil]

/-- Counterexample to C1 as stated: a valid run (N = 1, C = 1) whose
buffer holds a nonzero byte before generation; block 0 of chunk 0 of
the final contents is not the keystream block at counter 0. -/
theorem chunk_fill_not_keystream_cex :
    (1 : Nat) % 1 = 0 ∧
    blockAt (chunkAt (runGen key13 1 (255 :: List.replicate 15 0)) 1 0) 0 ≠
      ksBlock key13 ((beVal (deriveIV 0) + 0) % 2 ^ 128) := by
  refine ⟨by decide, ?_⟩
  rw [runGen_single_chunk key13 _ (by decide)]
  decide

/-- Claim C3 is violated by the code: the run's output is a function of
the buffer's initial (unspecified, never-zeroed) contents, not of key,
N and C alone.  Two runs of the same configuration (N = 1, C = 1, the
program's key) whose allocated buffers start with different garbage
produce different outputs. -/
theorem run_output_init_dependent :
    runGen key13 1 (List.replicate 16 0) ≠ runGen key13 1 (255 :: List.replicate 15 0) := by
  rw [runGen_single_chunk key13 _ (by decide), runGen_single_chunk key13 _ (by decide)]
  decide

/-- Helper: for chunk indices below 2^16 the counter value of the
derived IV is the 16-bit byte-swap of the index scaled by 2^48. -/
theorem beVal_deriveIV_small (i : Nat) (hi : i < 2 ^ 16) :
    beVal (deriveIV i) = (i % 256 * 256 + i / 256) * 2 ^ 48 := by
  rw [beVal_deriveIV]
  omega

/-- Claim C2 (amended): for every valid configuration whose chunk count
N/C is at most 2^16 and whose chunk size C is at most 2^48 (the
program's constants give 4000 chunks of 10^6 records), the counter
range of each chunk neither wraps around 2^128 nor intersects the
counter range of any other chunk.  (As stated over every divisible
(N, C) the claim fails: with C = 2^57 the ranges of chunks 0 and 1
overlap; see the counterexample.) -/
theorem ctr_ranges_disjoint (N C i j : Nat) (hdvd : N % C = 0) (hn : N / C ≤ 2 ^ 16)
    (hC : C ≤ 2 ^ 48) (hi : i < N / C) (hj : j < N / C) (hne : i ≠ j) :
    ctrNoWrap C i ∧ ctrDisjoint C i j := by
  have hi16 : i < 2 ^ 16 := lt_of_lt_of_le hi hn
  have hj16 : j < 2 ^ 16 := lt_of_lt_of_le hj hn
  have hvi := beVal_deriveIV_small i hi16
  have hvj := beVal_deriveIV_small j hj16
  constructor
  · unfold ctrNoWrap
    rw [hvi]
    omega
  · rintro v ⟨⟨k1, hk1, hv1⟩, ⟨k2, hk2, hv2⟩⟩
    rw [hvi, Nat.mod_eq_of_lt (by omega)] at hv1
    rw [hvj, Nat.mod_eq_of_lt (by omega)] at hv2
    omega

/-- Witness for the amended C2 at the program's configuration
(N = 4,000,000,000, C = 1,000,000, chunks 0 and 1). -/
theorem ctr_ranges_disjoint_witness :
    ctrNoWrap CHUNK_SIZE 0 ∧ ctrDisjoint CHUNK_SIZE 0 1 :=
  ctr_ranges_disjoint NUM_PASSWORDS CHUNK_SIZE 0 1 (by decide) (by decide)
    (by decide) (by decide) (by decide) (by decide)

/-- Counterexample to C2 as stated: N = 2^58, C = 2^57 is a valid
configuration (N mod C = 0) with chunks 0 and 1, yet the counter value
2^56 is consumed by both chunks (chunk 0 reaches it at block offset
2^56 < C, chunk 1 starts at it, since beVal (deriveIV 1) = 2^56). -/
theorem ctr_ranges_overlap_cex :
    (2 ^ 58 : Nat) % 2 ^ 57 = 0 ∧ (0 : Nat) < 2 ^ 58 / 2 ^ 57 ∧
    (1 : Nat) < 2 ^ 58 / 2 ^ 57 ∧ ¬ ctrDisjoint (2 ^ 57) 0 1 := by
  refine ⟨by norm_num, by norm_num, by norm_num, ?_⟩
  intro hd
  unfold ctrDisjoint at hd
  have h0 : beVal (deriveIV 0) = 0 := by decide
  have h1 : beVal (deriveIV 1) = 2 ^ 56 := by decide
  apply hd (2 ^ 56)
  unfold inCtrRange
  refine ⟨⟨2 ^ 56, by norm_num, ?_⟩, ⟨0, by norm_num, ?_⟩⟩
  · rw [h0, Nat.zero_add, Nat.mod_eq_of_lt (by norm_num)]
  · rw [h1, Nat.add_zero, Nat.mod_eq_of_lt (by norm_num)]

/-- Claim C8 (amended): with the spec's scenario key (16 bytes of 0x13),
N = 2,000,000 and C = 1,000,000, the run has exactly 2 chunks; chunk 0's
IV is 16 zero bytes; chunk 1's IV has byte 8 equal to 1 and every other
byte zero; and the first 16-byte output blocks of chunks 0 and 1 differ
whenever those two 16-byte spans held equal contents before generation
(in particular on a zero-filled buffer).  (As stated over arbitrary
prior contents the difference claim fails, because the keystream is
XORed into the never-zeroed buffer; see the counterexample.) -/
theorem concrete_scenario_amended (init : List Nat)
    (hinit : init.length = 16 * 2000000)
    (heq : blockAt (chunkAt init 1000000 0) 0 = blockAt (chunkAt init 1000000 1) 0) :
    numChunks 2000000 1000000 = 2 ∧
    deriveIV 0 = List.replicate 16 0 ∧
    (deriveIV 1).getD 8 0 = 1 ∧
    (∀ j, j < 16 → j ≠ 8 → (deriveIV 1).getD j 0 = 0) ∧
    blockAt (chunkAt (runGen key13 1000000 init) 1000000 0) 0 ≠
      blockAt (chunkAt (runGen key13 1000000 init) 1000000 1) 0 := by
  have hkey : key13.length = 16 := by decide
  refine ⟨by decide, by decide, by decide, ?_, ?_⟩
  · intro j hj hne
    interval_cases j <;> first | exact absurd rfl hne | decide
  · intro hcontra
    rw [runGen_block key13 hkey 2000000 1000000 (by norm_num) (by norm_num) init hinit
        0 0 (by norm_num) (by norm_num),
      runGen_block key13 hkey 2000000 1000000 (by norm_num) (by norm_num) init hinit
        1 0 (by norm_num) (by norm_num), heq] at hcontra
    have hB : (blockAt (chunkAt init 1000000 1) 0).length = 16 := by
      unfold blockAt chunkAt
      rw [List.length_take, List.length_drop, List.length_take, List.length_drop, hinit]
      omega
    have hE := xorBytes_left_cancel (blockAt (chunkAt init 1000000 1) 0) _ _
      (by rw [ksBlock_length key13 _ hkey, hB]) (by rw [ksBlock_length key13 _ hkey, hB])
      hcontra
    exact absurd hE (by decide)

/-- Witness for the amended C8: a zero-filled 2,000,000-record buffer. -/
theorem concrete_scenario_amended_witness :
    numChunks 2000000 1000000 = 2 ∧
    blockAt (chunkAt (runGen key13 1000000 (List.replicate 32000000 0)) 1000000 0) 0 ≠
      blockAt (chunkAt (runGen key13 1000000 (List.replicate 32000000 0)) 1000000 1) 0 := by
  have happ := concrete_scenario_amended (List.replicate 32000000 0)
    (by rw [List.length_replicate])
    (by unfold blockAt chunkAt
        rw [List.drop_replicate, List.take_replicate, List.drop_replicate,
          List.take_replicate, List.drop_replicate, List.take_replicate,
          List.drop_replicate, List.take_replicate]
        congr 1)
  exact ⟨happ.1, happ.2.2.2.2⟩

/-- A buffer of the C8 scenario's size whose unspecified initial
contents happen to hold, at the start of each chunk, that chunk's own
first keystream block (all other bytes zero).  Uninitialized memory can
hold any bytes, so this is a possible pre-state of the run. -/
def cexInit : List Nat :=
  (ksBlock key13 (beVal (deriveIV 0)) ++ List.replicate (16 * 1000000 - 16) 0) ++
  (ksBlock key13 (beVal (deriveIV 1)) ++ List.replicate (16 * 1000000 - 16) 0)

/-- Counterexample to C8 as stated: at the scenario's exact
configuration (key 0x13 x 16, N = 2,000,000, C = 1,000,000, a valid
run), there are prior buffer contents for which the first 16-byte
output blocks of chunk 0 and chunk 1 are equal (both all-zero), because
`apply_keystream` XORs the keystream into the buffer. -/
theorem concrete_scenario_cex :
    (2000000 : Nat) % 1000000 = 0 ∧ cexInit.length = 16 * 2000000 ∧
    blockAt (chunkAt (runGen key13 1000000 cexInit) 1000000 0) 0 =
      blockAt (chunkAt (runGen key13 1000000 cexInit) 1000000 1) 0 := by
  have hkey : key13.length = 16 := by decide
  have hk0 : (ksBlock key13 (beVal (deriveIV 0))).length = 16 := ksBlock_length _ _ hkey
  have hk1 : (ksBlock key13 (beVal (deriveIV 1))).length = 16 := ksBlock_length _ _ hkey
  have hc0 : (ksBlock key13 (beVal (deriveIV 0))
      ++ List.replicate (16 * 1000000 - 16) 0).length = 16 * 1000000 := by
    rw [List.length_append, hk0, List.length_replicate]
  have hc1 : (ksBlock key13 (beVal (deriveIV 1))
      ++ List.replicate (16 * 1000000 - 16) 0).length = 16 * 1000000 := by
    rw [List.length_append, hk1, List.length_replicate]
  have hlen : cexInit.length = 16 * 2000000 := by
    unfold cexInit
    rw [List.length_append, hc0, hc1]
  have hb0 : blockAt (chunkAt cexInit 1000000 0) 0 = ksBlock key13 (beVal (deriveIV 0)) := by
    unfold blockAt chunkAt cexInit
    rw [show 16 * 1000000 * 0 = 0 from by norm_num]
    rw [List.drop_zero, List.drop_zero, List.take_take]
    rw [show min 16 (16 * 1000000) = 16 from by norm_num]
    rw [List.take_append_eq_append_take, hc0,
      Nat.sub_eq_zero_of_le (show (16 : Nat) ≤ 16 * 1000000 from by norm_num),
      List.take_zero, List.append_nil, List.take_append_eq_append_take,
      List.take_all_of_le (le_of_eq hk0), hk0, Nat.sub_self, List.take_zero,
      List.append_nil]
  have hb1 : blockAt (chunkAt cexInit 1000000 1) 0 = ksBlock key13 (beVal (deriveIV 1)) := by
    unfold blockAt chunkAt cexInit
    rw [show 16 * 1000000 * 1 = 16 * 1000000 from by norm_num]
    rw [List.drop_zero, List.take_take]
    rw [show min 16 (16 * 1000000) = 16 from by norm_num]
    rw [List.drop_append_eq_append_drop, List.drop_eq_nil_of_le (le_of_eq hc0), hc0,
      Nat.sub_self, List.drop_zero, List.nil_append, List.take_append_eq_append_take,
      List.take_all_of_le (le_of_eq hk1), hk1, Nat.sub_self, List.take_zero,
      List.append_nil]
  refine ⟨by norm_num, hlen, ?_⟩
  rw [runGen_block key13 hkey 2000000 1000000 (by norm_num) (by norm_num) cexInit hlen
      0 0 (by norm_num) (by norm_num),
    runGen_block key13 hkey 2000000 1000000 (by norm_num) (by norm_num) cexInit hlen
      1 0 (by norm_num) (by norm_num), hb0, hb1]
  have hv0 : (beVal (deriveIV 0) + 0) % 2 ^ 128 = beVal (deriveIV 0) := by
    have := beVal_deriveIV_lt 0
    omega
  have hv1 : (beVal (deriveIV 1) + 0) % 2 ^ 128 = beVal (deriveIV 1) := by
    have := beVal_deriveIV_lt 1
    omega
  rw [hv0, hv1, xorBytes_self_eq, xorBytes_self_eq, hk0, hk1]
